import Mathlib

set_option maxHeartbeats 1000000

/-! Verification of the POSIX stream-socket endpoint
    (src/core/lib/event_engine/posix_engine/posix_endpoint.cc).

    Machine integers are modelled as Nat or Int; size_t wraparound is made
    explicit with arithmetic modulo 2^64 where it matters. Kernel and poller
    behaviour (results of sendmsg / recvmsg / setsockopt, delivery of
    readiness edges) enters through explicit oracle parameters, one entry per
    syscall the code issues. -/

/-! ## Zero-copy enablement at construction (C1) -/

/-- Embedding of the zero-copy enablement decision in the constructor
`PosixEndpointImpl::PosixEndpointImpl` (posix_endpoint.cc lines 1314-1339).
`setsockoptZerocopyOk` is true when
`posix_interface.SetSockOpt(fd, SOL_SOCKET, SO_ZEROCOPY, 1)` returns `.ok()`.
The source reads: `if (...SetSockOpt(...).ok()) \x7b zerocopy_enabled = false; ... \x7d`. -/
def zerocopyEnabledAtConstruction (tcpTxZeroCopyEnabled canTrackErrors : Bool)
    (rlimitMemLockMax ulimitHardMemLock : Nat)
    (setsockoptZerocopyOk : Bool) : Bool :=
  let z := tcpTxZeroCopyEnabled && canTrackErrors
  if z then
    if rlimitMemLockMax = 0 then false
    else if ulimitHardMemLock = 0 then false
    else if setsockoptZerocopyOk then false
    else true
  else false

/-- Modelled from the spec: `TcpZerocopySendCtx` is declared in
posix_endpoint.h, which is not under src/. Per the spec it stores the
`zerocopy_enabled` flag passed to its constructor (line 1341) and `Enabled()`
returns that flag. -/
def tcpZerocopySendCtxEnabled (zerocopyEnabled : Bool) : Bool := zerocopyEnabled

/-- C1: with zero-copy requested, error tracking available and both memlock
limits nonzero, the constructor disables zero-copy exactly when
`SetSockOpt(SO_ZEROCOPY)` succeeds, and enables it when the call fails - the
inverse of the claimed behaviour (`Enabled()` iff the kernel accepted
`SO_ZEROCOPY`). The inversion is a slip in the code: the branch taken on a
successful setsockopt logs "Failed to set zerocopy options on the socket.". -/
theorem c1_zerocopy_enabled_inverted_at_construction :
    tcpZerocopySendCtxEnabled
        (zerocopyEnabledAtConstruction true true 1 1 true) = false ∧
    tcpZerocopySendCtxEnabled
        (zerocopyEnabledAtConstruction true true 1 1 false) = true := by
  decide

/-! ## SO_RCVLOWAT tuning (C5) -/

def kRcvLowatMax : Nat := 16 * 1024 * 1024

def kRcvLowatThreshold : Nat := 16 * 1024

/-- Embedding of the `remaining` computation in
`PosixEndpointImpl::UpdateRcvLowat` (lines 500-513): clamp to the incoming
buffer length, `kRcvLowatMax` and `min_progress_size_`; force small values to
0; when zero-copy is off, subtract `kRcvLowatThreshold` from a positive value
for an early wakeup. -/
def rcvLowatRemaining (incomingLength minProgressSize : Nat)
    (zerocopyEnabled : Bool) : Nat :=
  let remaining0 := min (min incomingLength kRcvLowatMax) minProgressSize
  let remaining1 := if remaining0 < kRcvLowatThreshold then 0 else remaining0
  if zerocopyEnabled = false ∧ 0 < remaining1
  then remaining1 - kRcvLowatThreshold else remaining1

structure RcvLowatResult where
  setRcvlowat : Nat
  didSetSockOpt : Bool
deriving DecidableEq

/-- Embedding of `PosixEndpointImpl::UpdateRcvLowat` (lines 491-533).
`rcvlowatEnabled` is the `IsTcpRcvLowatEnabled()` feature flag;
`sockoptResult` abstracts the kernel reply to `SetSockOpt(SO_RCVLOWAT)`:
`some v` when the call succeeds returning wait threshold `v` (stored into
`set_rcvlowat_`), `none` on failure (the error is logged and `set_rcvlowat_`
keeps its previous value). -/
def updateRcvLowat (rcvlowatEnabled : Bool)
    (incomingLength minProgressSize setRcvlowat : Nat)
    (zerocopyEnabled : Bool) (sockoptResult : Option Nat) : RcvLowatResult :=
  if rcvlowatEnabled = false then ⟨setRcvlowat, false⟩
  else
    let remaining := rcvLowatRemaining incomingLength minProgressSize zerocopyEnabled
    if setRcvlowat ≤ 1 ∧ remaining ≤ 1 then ⟨setRcvlowat, false⟩
    else if setRcvlowat = remaining then ⟨setRcvlowat, false⟩
    else
      match sockoptResult with
      | some v => ⟨v, true⟩
      | none => ⟨setRcvlowat, true⟩

/-- C5 counterexample: with incoming length = min_progress_size =
set_rcvlowat = 20000 and zero-copy on, `remaining` computes to 20000, the
code performs no socket operation (it returns at the `set_rcvlowat_ ==
remaining` check), yet the claimed condition for skipping the syscall -
"nothing changed from set_rcvlowat AND both values are <= 1" - is false
because both values are 20000 > 1. So "performs no socket operation exactly
when ..." fails as stated. -/
theorem c5_counterexample_no_syscall_when_equal_and_large :
    rcvLowatRemaining 20000 20000 true = 20000 ∧
    (updateRcvLowat true 20000 20000 20000 true (some 123)).didSetSockOpt = false ∧
    ¬ (20000 = 20000 ∧ 20000 ≤ 1 ∧ (20000 : Nat) ≤ 1) := by
  decide

/-- C5 (amended): `remaining` is computed as the claim states (this is
`rcvLowatRemaining`); the socket operation is skipped exactly when both
`set_rcvlowat` and `remaining` are at most 1 OR `remaining` equals
`set_rcvlowat` (not only when both conjuncts hold at once); otherwise
SO_RCVLOWAT is set and, on success, the kernel's returned value is recorded
in `set_rcvlowat`. With the feature flag off nothing happens. -/
theorem c5_update_rcv_lowat_characterization
    (len mps set : Nat) (zc : Bool) (v : Nat) :
    (∀ res : Option Nat,
      (updateRcvLowat true len mps set zc res).didSetSockOpt = false ↔
        ((set ≤ 1 ∧ rcvLowatRemaining len mps zc ≤ 1) ∨
          set = rcvLowatRemaining len mps zc)) ∧
    ((updateRcvLowat true len mps set zc (some v)).didSetSockOpt = true →
      (updateRcvLowat true len mps set zc (some v)).setRcvlowat = v) ∧
    updateRcvLowat false len mps set zc (some v) = ⟨set, false⟩ := by
  refine ⟨?_, ?_, ?_⟩
  · intro res
    simp only [updateRcvLowat]
    split_ifs with h1 h2 h3 <;> cases res <;> simp_all
  · simp only [updateRcvLowat]
    split_ifs <;> simp_all
  · simp [updateRcvLowat]

/-- Witness for `c5_update_rcv_lowat_characterization` at a concrete input:
len = mps = 100000, set = 3, zero-copy on, so remaining = 100000 and the
syscall happens and records the kernel's value 7. -/
theorem c5_update_rcv_lowat_witness :
    (updateRcvLowat true 100000 100000 3 true (some 7)).setRcvlowat = 7 :=
  (c5_update_rcv_lowat_characterization 100000 100000 3 true 7).2.1 (by decide)

/-! ## Status model shared by the write/read paths -/

inductive StatusKind
  | ok
  | internal
  | cancelled
  | unknown
deriving DecidableEq

/-- A shallow model of `absl::Status` as used by this file: the error kind,
its message, and the `StatusIntProperty::kRpcStatus` annotation set by
`TcpAnnotateError` / the fork-cancellation path. -/
structure Status where
  kind : StatusKind
  message : String
  rpcStatus : Option Nat
deriving DecidableEq

def GRPC_STATUS_UNAVAILABLE : Nat := 14

def GRPC_STATUS_CANCELLED : Nat := 1

def okStatus : Status := ⟨.ok, "", none⟩

def internalError (msg : String) : Status := ⟨.internal, msg, none⟩

/-- Embedding of `PosixEndpointImpl::TcpAnnotateError` (lines 285-289):
annotate the status with transport status UNAVAILABLE. -/
def tcpAnnotateError (s : Status) : Status :=
  { s with rpcStatus := some GRPC_STATUS_UNAVAILABLE }

/-! ## Write of an empty buffer (C7) -/

/-- The endpoint state touched by the `data->Length() == 0` branch of
`Write`: whether `write_cb_` holds a callback, the outgoing buffer length,
and `bytes_counter_`. -/
structure WriteState where
  writeCbStored : Bool
  outgoingLen : Nat
  bytesCounter : Int
deriving DecidableEq

/-- Embedding of the empty-buffer branch of `PosixEndpointImpl::Write`
(lines 1200-1214), entered when `data->Length() == 0`. Returns the return
value, the endpoint state after the branch, and the list of statuses
scheduled through `engine_->Run` for `on_writable`. Neither path invokes the
callback synchronously or stores it in `write_cb_`. -/
def writeEmptyData (st : WriteState) (handleShutdown : Bool) :
    Bool × WriteState × List Status :=
  match handleShutdown with
  | true => (false, st, [tcpAnnotateError (internalError "EOF")])
  | false => (true, st, [])

/-- C7: writing an empty buffer on a live handle returns true, schedules
nothing and leaves the endpoint state unchanged; on a shut handle it returns
false and schedules `on_writable` exactly once with the internal "EOF" error
annotated with UNAVAILABLE. -/
theorem c7_write_empty_buffer (st : WriteState) :
    writeEmptyData st false = (true, st, []) ∧
    writeEmptyData st true =
      (false, st, [⟨.internal, "EOF", some GRPC_STATUS_UNAVAILABLE⟩]) :=
  ⟨rfl, rfl⟩

/-! ## Error-queue handler after shutdown (C10) -/

/-- The observable actions of one `HandleError` invocation. -/
structure HandleErrorActions where
  unref : Bool
  drainedErrorQueue : Bool
  forcedReadable : Bool
  forcedWritable : Bool
  rearmedErrorNotification : Bool
deriving DecidableEq

/-- Embedding of `PosixEndpointImpl::HandleError` (lines 840-857).
`processedErr` abstracts the return value of `ProcessErrors()`. -/
def handleError (statusOk stopErrorNotification processedErr : Bool) :
    HandleErrorActions :=
  if statusOk = false ∨ stopErrorNotification = true then
    ⟨true, false, false, false, false⟩
  else if processedErr = false then
    ⟨false, true, true, true, true⟩
  else
    ⟨false, true, false, false, true⟩

/-- Embedding of the `stop_error_notification_` effect of
`PosixEndpointImpl::MaybeShutdown` (lines 1254-1261): the flag is stored true
when the poller can track errors; no statement in the file ever clears it. -/
def maybeShutdownStopFlag (canTrackErrors stopErrorNotification : Bool) : Bool :=
  if canTrackErrors then true else stopErrorNotification

/-- C10: once `stop_error_notification_` is set (or the poller delivers a
non-ok status), `HandleError` only releases its reference: it does not drain
the error queue, force readable/writable, or re-register for error
notification; and `MaybeShutdown` never clears an already-set flag, so this
holds for every subsequent invocation. -/
theorem c10_handle_error_after_shutdown :
    (∀ statusOk processedErr : Bool,
      handleError statusOk true processedErr = ⟨true, false, false, false, false⟩) ∧
    (∀ processedErr : Bool,
      handleError false false processedErr = ⟨true, false, false, false, false⟩) ∧
    (∀ canTrackErrors : Bool, maybeShutdownStopFlag canTrackErrors true = true) := by
  refine ⟨?_, ?_, ?_⟩ <;> decide

/-! ## bytes_counter_ reset in WriteWithTimestamps (C2, counterexample part) -/

/-- Embedding of the `bytes_counter_` update in
`PosixEndpointImpl::WriteWithTimestamps` (lines 859-874): on the first call
with socket timestamps not yet enabled, if `SetSockOpt(SO_TIMESTAMPING)`
succeeds the counter is set to -1 (and `socket_ts_enabled_` becomes true);
in every other case the function leaves `bytes_counter_` unchanged (the
`bytes_counter_ += sent` accounting is done by the callers, TcpFlush and
DoFlushZerocopy). -/
def writeWithTimestampsBytesCounter (socketTsEnabled setsockoptOk : Bool)
    (bytesCounter : Int) : Int :=
  if socketTsEnabled = false ∧ setsockoptOk = true then -1 else bytesCounter

/-- C2 counterexample: a WriteWithTimestamps step on a state with
`bytes_counter_ = 5` and timestamps not yet enabled, with a succeeding
`SetSockOpt(SO_TIMESTAMPING)`, sets `bytes_counter_` to -1: the counter
decreases, and the update is not "the number of bytes sendmsg returned". -/
theorem c2_counterexample_bytes_counter_reset :
    writeWithTimestampsBytesCounter false true 5 = -1 ∧ (-1 : Int) < 5 := by
  decide

/-! ## Read-slice allocation (C8) -/

def kBigAlloc : Nat := 64 * 1024

def kSmallAlloc : Nat := 8 * 1024

/-- Embedding of the 64 KiB allocation loop of `MaybeMakeReadSlices`
(lines 552-557): total number of bytes appended to the incoming buffer.
`extra` is the C++ int `extra_wanted`, which may go negative before the loop
exits. -/
def bigAllocBytes (extra : Int) : Nat :=
  if extra ≤ 0 then 0 else kBigAlloc + bigAllocBytes (extra - (kBigAlloc : Int))
termination_by extra.toNat
decreasing_by
  simp only [kBigAlloc] at *
  omega

/-- Embedding of the 8 KiB allocation loop of `MaybeMakeReadSlices`
(lines 558-564): total number of bytes appended. -/
def smallAllocBytes (extra : Int) : Nat :=
  if extra ≤ 0 then 0 else kSmallAlloc + smallAllocBytes (extra - (kSmallAlloc : Int))
termination_by extra.toNat
decreasing_by
  simp only [kSmallAlloc] at *
  omega

/-- The `allocate_length` computation of `MaybeMakeReadSlices`
(lines 539-547): start from `min_progress_size` and raise to `target_length`
when memory pressure is low and the target is larger. -/
def allocTarget (minProgressSize targetLength : Nat) (lowMemoryPressure : Bool) : Nat :=
  if lowMemoryPressure = true ∧ minProgressSize < targetLength
  then targetLength else minProgressSize

/-- Embedding of `PosixEndpointImpl::MaybeMakeReadSlices` (lines 535-568),
returning the new `incoming_buffer_->Length()`. `lowMemoryPressure` is the
comparison `pressure_control_value < 0.8`; `targetLength` is
`static_cast<size_t>(target_length_)`. -/
def maybeMakeReadSlices (incomingLength minProgressSize targetLength : Nat)
    (lowMemoryPressure : Bool) : Nat :=
  if incomingLength < max minProgressSize 1 then
    if (if lowMemoryPressure then (kSmallAlloc * 3 / 2 : Int) else (kBigAlloc : Int))
        ≤ max 1 ((allocTarget minProgressSize targetLength lowMemoryPressure : Int)
                  - (incomingLength : Int))
    then incomingLength + bigAllocBytes
          (max 1 ((allocTarget minProgressSize targetLength lowMemoryPressure : Int)
                  - (incomingLength : Int)))
    else incomingLength + smallAllocBytes
          (max 1 ((allocTarget minProgressSize targetLength lowMemoryPressure : Int)
                  - (incomingLength : Int)))
  else incomingLength

/-- The 64 KiB allocation loop appends at least `extra` bytes. -/
theorem le_bigAllocBytes (extra : Int) : extra ≤ (bigAllocBytes extra : Int) := by
  rw [bigAllocBytes]
  split_ifs with h
  · simpa using h
  · have ih := le_bigAllocBytes (extra - (kBigAlloc : Int))
    push_cast
    omega
termination_by extra.toNat
decreasing_by
  simp only [kBigAlloc] at *
  omega

/-- The 8 KiB allocation loop appends at least `extra` bytes. -/
theorem le_smallAllocBytes (extra : Int) : extra ≤ (smallAllocBytes extra : Int) := by
  rw [smallAllocBytes]
  split_ifs with h
  · simpa using h
  · have ih := le_smallAllocBytes (extra - (kSmallAlloc : Int))
    push_cast
    omega
termination_by extra.toNat
decreasing_by
  simp only [kSmallAlloc] at *
  omega

/-- The allocation goal is at least `min_progress_size`. -/
theorem mps_le_allocTarget (mps target : Nat) (low : Bool) :
    mps ≤ allocTarget mps target low := by
  rw [allocTarget]
  split_ifs with h
  · exact Nat.le_of_lt h.2
  · exact le_refl _

/-- C8: after `MaybeMakeReadSlices` the incoming buffer length is at least
max(min_progress_size, 1) and in particular nonzero, so the assertion
`CHECK_NE(incoming_buffer_->Length(), 0u)` at the top of TcpDoRead cannot
fire on the paths (Read's synchronous branch, HandleReadLocked) where
MaybeMakeReadSlices runs first. -/
theorem c8_read_slices_length_lower_bound
    (len mps target : Nat) (low : Bool) :
    max mps 1 ≤ maybeMakeReadSlices len mps target low ∧
    0 < maybeMakeReadSlices len mps target low := by
  have main : max mps 1 ≤ maybeMakeReadSlices len mps target low := by
    rw [maybeMakeReadSlices]
    have hmps := mps_le_allocTarget mps target low
    have halB := le_bigAllocBytes
      (max 1 ((allocTarget mps target low : Int) - (len : Int)))
    have halS := le_smallAllocBytes
      (max 1 ((allocTarget mps target low : Int) - (len : Int)))
    split_ifs with hg hb <;> omega
  exact ⟨main, lt_of_lt_of_le (by omega) main⟩

/-! ## The copy and zero-copy write flush loops (C2, C6)

The outgoing data is modelled as a list of slices, each slice a list of
bytes. The kernel's replies to the successive `sendmsg` calls issued by the
flush loop are an explicit oracle (`List SendRes`), one entry per loop
iteration; the loop returns `none` if the oracle is exhausted or reports
more accepted bytes than were offered (situations the kernel cannot
produce). -/

/-- One `sendmsg` outcome, as distinguished by TcpFlush / DoFlushZerocopy:
`sent n` (the call accepted `n` bytes), `eagain` (EAGAIN or ENOBUFS), or
`err` (any other failure). -/
inductive SendRes where
  | sent (n : Nat)
  | eagain
  | err
deriving DecidableEq

/-- Length of slice `i` of the buffer (`RefSlice(i).length()`), 0 past the
end. -/
def sliceLen (buf : List (List Nat)) (i : Nat) : Nat := (buf.getD i []).length

/-- Total byte length of a list of slices. -/
def sumLens (l : List (List Nat)) : Nat := (l.map List.length).sum

/-- The byte position that the offset pair `(slice_idx, byte_idx)` denotes in
the concatenated buffer. -/
def posBytes (buf : List (List Nat)) (sliceIdx byteIdx : Nat) : Nat :=
  sumLens (buf.take sliceIdx) + byteIdx

/-- The MAX_WRITE_IOVEC bound of the iov-building loops (line 230): 260, or
IOV_MAX when smaller; we take the common value 260. -/
def MAX_WRITE_IOVEC : Nat := 260

/-- The slices planned into the iov array by one iteration of the flush loop
(lines 1077-1088): from `slice_idx`, at most MAX_WRITE_IOVEC of them. -/
def planSlices (buf : List (List Nat)) (sliceIdx : Nat) : List (List Nat) :=
  (buf.drop sliceIdx).take MAX_WRITE_IOVEC

/-- `sending_length` of one iteration: the planned slices' bytes, minus the
`byte_idx` offset into the first planned slice (only `iov[0]` starts at
`outgoing_byte_idx_`; later slices start at 0). -/
def planLen (buf : List (List Nat)) (sliceIdx byteIdx : Nat) : Nat :=
  sumLens (planSlices buf sliceIdx) - byteIdx

/-- Embedding of the trailing-bytes unwind loop shared by `TcpFlush`
(lines 1137-1148) and `TcpZerocopySendRecord::UpdateOffsetForBytesSent`
(lines 254-268): starting from the planned end index with `trailing` bytes
unsent, walk backwards until the position of the first unsent byte is found;
`byte_idx` is left 0 when the walk exits with nothing trailing. -/
def unwindWalk (buf : List (List Nat)) : Nat → Nat → Nat × Nat
  | idx, 0 => (idx, 0)
  | 0, _ + 1 => (0, 0)
  | idx + 1, t + 1 =>
    if t + 1 < sliceLen buf idx then (idx, sliceLen buf idx - (t + 1))
    else unwindWalk buf idx (t + 1 - sliceLen buf idx)

/-- Result of a `TcpFlush` run: the outgoing buffer after the call (trimmed
by `TakeFirst` / `Clear`), the final `outgoing_byte_idx_`, the final
`bytes_counter_`, the successive `sendmsg` return values consumed, the
return value (`done`), and whether `status` is ok. -/
structure FlushState where
  bufAfter : List (List Nat)
  byteIdx : Nat
  bytesCounter : Int
  acceptedList : List Nat
  done : Bool
  statusOk : Bool
deriving DecidableEq

/-- Embedding of the loop of `PosixEndpointImpl::TcpFlush` (lines 1057-1154)
on the plain-send path (no metrics sink installed, so `WriteWithTimestamps`
is not entered; its `bytes_counter_` reset is modelled separately by
`writeWithTimestampsBytesCounter`). Arguments: the outgoing buffer, the
loop-local `outgoing_slice_idx`, the member `outgoing_byte_idx_`, the member
`bytes_counter_`, the accepted-bytes accumulator, and the sendmsg oracle. -/
def tcpFlushLoop (buf : List (List Nat)) :
    Nat → Nat → Int → List Nat → List SendRes → Option FlushState
  | _, _, _, _, [] => none
  | si, bi, bc, acc, r :: rs =>
    match r with
    | .eagain => some ⟨buf.drop si, bi, bc, acc, false, true⟩
    | .err => some ⟨[], 0, bc, acc, true, false⟩
    | .sent n =>
      if planLen buf si bi < n then none
      else
        let p := unwindWalk buf (si + (planSlices buf si).length) (planLen buf si bi - n)
        if p.1 = buf.length then some ⟨[], 0, bc + n, acc ++ [n], true, true⟩
        else tcpFlushLoop buf p.1 p.2 (bc + n) (acc ++ [n]) rs

/-- `TcpFlush` entry: `outgoing_slice_idx` starts at 0 (line 1070) and no
bytes have been accepted yet in this call. -/
def tcpFlush (buf : List (List Nat)) (byteIdx : Nat) (bytesCounter : Int)
    (results : List SendRes) : Option FlushState :=
  tcpFlushLoop buf 0 byteIdx bytesCounter [] results

/-- Result of a `DoFlushZerocopy` run: the record's `out_offset_` pair, the
final `bytes_counter_`, the sendmsg returns consumed, the return value and
the status. The record keeps its slices throughout, so no buffer is
returned. -/
structure ZcFlushState where
  sliceIdx : Nat
  byteIdx : Nat
  bytesCounter : Int
  acceptedList : List Nat
  done : Bool
  statusOk : Bool
deriving DecidableEq

/-- Embedding of the loop of `PosixEndpointImpl::DoFlushZerocopy`
(lines 946-1044) on the plain-send path, with
`TcpZerocopySendRecord::PopulateIovs` (lines 232-252) and
`UpdateOffsetForBytesSent` (lines 254-268) inlined: the iov planning and the
backward unwind are the same arithmetic as in TcpFlush. On EAGAIN/ENOBUFS the
offset is restored to the iteration-start pair (`UnwindIfThrottled`, which
the spec describes as unwinding to `(unwind_slice_idx, unwind_byte_idx)`;
the function itself is declared in posix_endpoint.h, not under src/). The
loop ends successfully when `AllSlicesSent()`, i.e. when the offset reached
the end of the record's slices. -/
def doFlushZerocopyLoop (buf : List (List Nat)) :
    Nat → Nat → Int → List Nat → List SendRes → Option ZcFlushState
  | _, _, _, _, [] => none
  | si, bi, bc, acc, r :: rs =>
    match r with
    | .eagain => some ⟨si, bi, bc, acc, false, true⟩
    | .err => some ⟨si + (planSlices buf si).length, 0, bc, acc, true, false⟩
    | .sent n =>
      if planLen buf si bi < n then none
      else
        let p := unwindWalk buf (si + (planSlices buf si).length) (planLen buf si bi - n)
        if p.1 = buf.length then some ⟨p.1, p.2, bc + n, acc ++ [n], true, true⟩
        else doFlushZerocopyLoop buf p.1 p.2 (bc + n) (acc ++ [n]) rs

/-- `DoFlushZerocopy` entry at the record's current offset. -/
def doFlushZerocopy (buf : List (List Nat)) (sliceIdx byteIdx : Nat)
    (bytesCounter : Int) (results : List SendRes) : Option ZcFlushState :=
  doFlushZerocopyLoop buf sliceIdx byteIdx bytesCounter [] results

/-! ### List bookkeeping lemmas -/

theorem sumLens_append (a b : List (List Nat)) :
    sumLens (a ++ b) = sumLens a + sumLens b := by
  simp [sumLens]

theorem sumLens_take_succ (buf : List (List Nat)) (i : Nat) :
    sumLens (buf.take (i + 1)) = sumLens (buf.take i) + sliceLen buf i := by
  rw [List.take_succ, sumLens_append]
  congr 1
  cases h : buf[i]? with
  | none =>
    simp [sumLens, sliceLen, List.getD, h]
  | some s =>
    simp [sumLens, sliceLen, List.getD, h]

theorem sumLens_take_add (buf : List (List Nat)) (m k : Nat) :
    sumLens (buf.take (m + k)) = sumLens (buf.take m) + sumLens ((buf.drop m).take k) := by
  rw [List.take_add, sumLens_append]

theorem sumLens_take_mono (buf : List (List Nat)) {m n : Nat} (h : m ≤ n) :
    sumLens (buf.take m) ≤ sumLens (buf.take n) := by
  obtain ⟨k, rfl⟩ := Nat.le.dest h
  rw [sumLens_take_add]
  omega

theorem flatten_drop (buf : List (List Nat)) (k : Nat) :
    (buf.drop k).flatten = buf.flatten.drop (sumLens (buf.take k)) := by
  induction buf generalizing k with
  | nil => simp [sumLens]
  | cons a t ih =>
    cases k with
    | zero => simp [sumLens]
    | succ k =>
      simp only [List.drop_succ_cons, List.take_succ_cons, List.flatten_cons, sumLens,
        List.map_cons, List.sum_cons]
      rw [← List.drop_drop, List.drop_left]
      exact ih k

/-- Specification of the backward unwind walk: starting from `idx` with
`t ≤` the bytes before `idx`, the walk lands on a consistent offset pair
exactly `t` bytes before position `idx`-start-of-slice. -/
theorem unwindWalk_spec (buf : List (List Nat)) :
    ∀ idx t, t ≤ sumLens (buf.take idx) →
      (unwindWalk buf idx t).1 ≤ idx ∧
      (unwindWalk buf idx t).2 ≤ sliceLen buf (unwindWalk buf idx t).1 ∧
      posBytes buf (unwindWalk buf idx t).1 (unwindWalk buf idx t).2 + t
        = sumLens (buf.take idx) := by
  intro idx
  induction idx with
  | zero =>
    intro t ht
    simp [sumLens] at ht
    subst ht
    simp [unwindWalk, posBytes, sumLens]
  | succ i ih =>
    intro t ht
    cases t with
    | zero =>
      simp [unwindWalk, posBytes]
    | succ t =>
      rw [sumLens_take_succ] at ht
      by_cases hlt : t + 1 < sliceLen buf i
      · simp only [unwindWalk, hlt, if_true]
        refine ⟨by omega, by omega, ?_⟩
        simp only [posBytes]
        rw [sumLens_take_succ]
        omega
      · simp only [unwindWalk, hlt, if_false]
        have ht' : t + 1 - sliceLen buf i ≤ sumLens (buf.take i) := by omega
        obtain ⟨h1, h2, h3⟩ := ih (t + 1 - sliceLen buf i) ht'
        refine ⟨by omega, h2, ?_⟩
        rw [sumLens_take_succ]
        omega

theorem planSlices_length (buf : List (List Nat)) (si : Nat) :
    (planSlices buf si).length = min MAX_WRITE_IOVEC (buf.length - si) := by
  simp [planSlices]

theorem planSlices_length_pos (buf : List (List Nat)) {si : Nat}
    (h : si < buf.length) : 0 < (planSlices buf si).length := by
  rw [planSlices_length]
  simp [MAX_WRITE_IOVEC]
  omega

theorem sumLens_take_planEnd (buf : List (List Nat)) (si : Nat) :
    sumLens (buf.take (si + (planSlices buf si).length))
      = sumLens (buf.take si) + sumLens (planSlices buf si) := by
  rw [sumLens_take_add]
  congr 2
  rw [planSlices, List.length_take]
  apply List.take_eq_take.mpr
  omega

/-- Collected facts about one planning step at a consistent offset. -/
theorem plan_facts (buf : List (List Nat)) {si bi : Nat}
    (hsi : si < buf.length) (hbi : bi ≤ sliceLen buf si) :
    si + 1 ≤ si + (planSlices buf si).length ∧
    si + (planSlices buf si).length ≤ buf.length ∧
    posBytes buf si bi + planLen buf si bi
      = sumLens (buf.take (si + (planSlices buf si).length)) := by
  have hpos := planSlices_length_pos buf hsi
  have hlen := planSlices_length buf si
  have hend := sumLens_take_planEnd buf si
  have hone : sumLens (buf.take (si + 1)) = sumLens (buf.take si) + sliceLen buf si :=
    sumLens_take_succ buf si
  have hmono : sumLens (buf.take (si + 1))
      ≤ sumLens (buf.take (si + (planSlices buf si).length)) :=
    sumLens_take_mono buf (by omega)
  refine ⟨by omega, by simp [MAX_WRITE_IOVEC] at hlen; omega, ?_⟩
  simp only [posBytes, planLen]
  omega

/-! ### bytes_counter accounting in the flush loops -/

/-- In any TcpFlush run, `bytes_counter_` grows by exactly the sum of the
`sendmsg` return values consumed. -/
theorem tcpFlushLoop_bytes (buf : List (List Nat)) :
    ∀ (rs : List SendRes) (si bi : Nat) (bc : Int) (acc : List Nat) (out : FlushState),
      tcpFlushLoop buf si bi bc acc rs = some out →
      ∃ l, out.acceptedList = acc ++ l ∧ out.bytesCounter = bc + (l.sum : Int) := by
  intro rs
  induction rs with
  | nil =>
    intro si bi bc acc out h
    simp [tcpFlushLoop] at h
  | cons r rs ih =>
    intro si bi bc acc out h
    cases r with
    | eagain =>
      simp only [tcpFlushLoop] at h
      injection h with h
      subst h
      exact ⟨[], by simp, by simp⟩
    | err =>
      simp only [tcpFlushLoop] at h
      injection h with h
      subst h
      exact ⟨[], by simp, by simp⟩
    | sent n =>
      simp only [tcpFlushLoop] at h
      by_cases hg : planLen buf si bi < n
      · simp [hg] at h
      · rw [if_neg hg] at h
        by_cases hp : (unwindWalk buf (si + (planSlices buf si).length)
            (planLen buf si bi - n)).1 = buf.length
        · rw [if_pos hp] at h
          injection h with h
          subst h
          exact ⟨[n], by simp, by push_cast; simp⟩
        · rw [if_neg hp] at h
          obtain ⟨l', hl1, hl2⟩ := ih _ _ _ _ _ h
          refine ⟨n :: l', by simp [hl1], ?_⟩
          rw [hl2]
          push_cast
          simp only [List.map_cons, List.sum_cons]
          ring

/-- In any DoFlushZerocopy run, `bytes_counter_` grows by exactly the sum of
the `sendmsg` return values consumed. -/
theorem doFlushZerocopyLoop_bytes (buf : List (List Nat)) :
    ∀ (rs : List SendRes) (si bi : Nat) (bc : Int) (acc : List Nat) (out : ZcFlushState),
      doFlushZerocopyLoop buf si bi bc acc rs = some out →
      ∃ l, out.acceptedList = acc ++ l ∧ out.bytesCounter = bc + (l.sum : Int) := by
  intro rs
  induction rs with
  | nil =>
    intro si bi bc acc out h
    simp [doFlushZerocopyLoop] at h
  | cons r rs ih =>
    intro si bi bc acc out h
    cases r with
    | eagain =>
      simp only [doFlushZerocopyLoop] at h
      injection h with h
      subst h
      exact ⟨[], by simp, by simp⟩
    | err =>
      simp only [doFlushZerocopyLoop] at h
      injection h with h
      subst h
      exact ⟨[], by simp, by simp⟩
    | sent n =>
      simp only [doFlushZerocopyLoop] at h
      by_cases hg : planLen buf si bi < n
      · simp [hg] at h
      · rw [if_neg hg] at h
        by_cases hp : (unwindWalk buf (si + (planSlices buf si).length)
            (planLen buf si bi - n)).1 = buf.length
        · rw [if_pos hp] at h
          injection h with h
          subst h
          exact ⟨[n], by simp, by push_cast; simp⟩
        · rw [if_neg hp] at h
          obtain ⟨l', hl1, hl2⟩ := ih _ _ _ _ _ h
          refine ⟨n :: l', by simp [hl1], ?_⟩
          rw [hl2]
          push_cast
          simp only [List.map_cons, List.sum_cons]
          ring

/-- C2 (amended): across TcpFlush and DoFlushZerocopy, `bytes_counter_`
never decreases and grows by exactly the sum of the bytes the kernel's
sendmsg calls returned (`acceptedList` records those returns, one per call);
`WriteWithTimestamps`, however, resets `bytes_counter_` to -1 at the single
step where it first enables SO_TIMESTAMPING, and leaves it unchanged in
every other case. -/
theorem c2_bytes_counter_amended :
    (∀ (buf : List (List Nat)) (bi : Nat) (bc : Int) (rs : List SendRes)
        (out : FlushState), tcpFlush buf bi bc rs = some out →
        out.bytesCounter = bc + (out.acceptedList.sum : Int) ∧ bc ≤ out.bytesCounter) ∧
    (∀ (buf : List (List Nat)) (si bi : Nat) (bc : Int) (rs : List SendRes)
        (out : ZcFlushState), doFlushZerocopy buf si bi bc rs = some out →
        out.bytesCounter = bc + (out.acceptedList.sum : Int) ∧ bc ≤ out.bytesCounter) ∧
    (∀ bc : Int, writeWithTimestampsBytesCounter false true bc = -1) ∧
    (∀ (b : Bool) (bc : Int), writeWithTimestampsBytesCounter true b bc = bc) ∧
    (∀ bc : Int, writeWithTimestampsBytesCounter false false bc = bc) := by
  refine ⟨?_, ?_, ?_, ?_, ?_⟩
  · intro buf bi bc rs out h
    obtain ⟨l, h1, h2⟩ := tcpFlushLoop_bytes buf rs 0 bi bc [] out h
    simp only [List.nil_append] at h1
    rw [h1, h2]
    constructor
    · rfl
    · have : (0 : Int) ≤ (l.sum : Int) := Int.ofNat_nonneg _
      omega
  · intro buf si bi bc rs out h
    obtain ⟨l, h1, h2⟩ := doFlushZerocopyLoop_bytes buf rs si bi bc [] out h
    simp only [List.nil_append] at h1
    rw [h1, h2]
    constructor
    · rfl
    · have : (0 : Int) ≤ (l.sum : Int) := Int.ofNat_nonneg _
      omega
  · intro bc
    simp [writeWithTimestampsBytesCounter]
  · intro b bc
    simp [writeWithTimestampsBytesCounter]
  · intro bc
    simp [writeWithTimestampsBytesCounter]

/-- Witness for `c2_bytes_counter_amended` at a concrete run: one slice of 3
bytes, 2 accepted by the kernel then EAGAIN; `bytes_counter_` goes from 3 to
5 = 3 + 2. -/
theorem c2_bytes_counter_amended_witness :
    (⟨[[1, 2, 3]], 2, 5, [2], false, true⟩ : FlushState).bytesCounter
        = 3 + ((⟨[[1, 2, 3]], 2, 5, [2], false, true⟩ : FlushState).acceptedList.sum : Int) ∧
      (3 : Int) ≤ (⟨[[1, 2, 3]], 2, 5, [2], false, true⟩ : FlushState).bytesCounter :=
  c2_bytes_counter_amended.1 [[1, 2, 3]] 0 3 [.sent 2, .eagain]
    ⟨[[1, 2, 3]], 2, 5, [2], false, true⟩ (by decide)

/-! ### The EAGAIN exit of TcpFlush (C6) -/

/-- Invariant of the TcpFlush loop on an EAGAIN exit: the buffer after the
call is a suffix of the original starting at the failing iteration's
slice index, `outgoing_byte_idx_` is a consistent offset into it, and its
position equals the position at loop entry plus all bytes accepted since. -/
theorem tcpFlushLoop_eagain_inv (buf : List (List Nat)) :
    ∀ (rs : List SendRes) (si bi : Nat) (bc : Int) (acc : List Nat) (out : FlushState),
      si < buf.length → bi ≤ sliceLen buf si →
      tcpFlushLoop buf si bi bc acc rs = some out → out.done = false →
      out.statusOk = true ∧
      ∃ k l, out.bufAfter = buf.drop k ∧ out.acceptedList = acc ++ l ∧
        k < buf.length ∧ out.byteIdx ≤ sliceLen buf k ∧
        posBytes buf k out.byteIdx = posBytes buf si bi + l.sum := by
  intro rs
  induction rs with
  | nil =>
    intro si bi bc acc out _ _ h _
    simp [tcpFlushLoop] at h
  | cons r rs ih =>
    intro si bi bc acc out hsi hbi h hdone
    cases r with
    | eagain =>
      simp only [tcpFlushLoop] at h
      injection h with h
      subst h
      exact ⟨rfl, si, [], rfl, by simp, hsi, hbi, by simp⟩
    | err =>
      simp only [tcpFlushLoop] at h
      injection h with h
      subst h
      simp at hdone
    | sent n =>
      simp only [tcpFlushLoop] at h
      by_cases hg : planLen buf si bi < n
      · simp [hg] at h
      · rw [if_neg hg] at h
        by_cases hp : (unwindWalk buf (si + (planSlices buf si).length)
            (planLen buf si bi - n)).1 = buf.length
        · rw [if_pos hp] at h
          injection h with h
          subst h
          simp at hdone
        · rw [if_neg hp] at h
          obtain ⟨hple, hend, hpos⟩ := plan_facts buf hsi hbi
          have ht : planLen buf si bi - n
              ≤ sumLens (buf.take (si + (planSlices buf si).length)) := by
            omega
          obtain ⟨hw1, hw2, hw3⟩ := unwindWalk_spec buf
            (si + (planSlices buf si).length) (planLen buf si bi - n) ht
          have hplt : (unwindWalk buf (si + (planSlices buf si).length)
              (planLen buf si bi - n)).1 < buf.length :=
            lt_of_le_of_ne (le_trans hw1 hend) hp
          obtain ⟨hok, k, l', ho1, ho2, ho3, ho4, ho5⟩ :=
            ih _ _ _ _ _ hplt hw2 h hdone
          refine ⟨hok, k, n :: l', ho1, by simp [ho2], ho3, ho4, ?_⟩
          simp only [List.sum_cons]
          simp only [posBytes] at hw3 hpos ho5 ⊢
          omega

/-- C6: when a sendmsg in TcpFlush fails with EAGAIN or ENOBUFS the call
returns false with an ok status, the outgoing buffer is the suffix of the
original buffer from the failing iteration's first slice (exactly the
not-fully-sent slices), `outgoing_byte_idx_` is restored to the iteration
start and indexes into the first remaining slice, and the buffer bytes past
that offset are exactly the bytes the kernel has not yet accepted: the
original byte stream minus its accepted prefix (`bi` bytes of the first
slice were accepted by a previous TcpFlush call of the same Write, plus the
sendmsg returns of this call). -/
theorem c6_tcp_flush_eagain_keeps_unsent_suffix
    (buf : List (List Nat)) (bi : Nat) (bc : Int) (rs : List SendRes)
    (out : FlushState) (hbuf : 0 < buf.length) (hbi : bi ≤ sliceLen buf 0)
    (h : tcpFlush buf bi bc rs = some out) (hdone : out.done = false) :
    out.statusOk = true ∧
    (∃ k, k < buf.length ∧ out.bufAfter = buf.drop k) ∧
    out.byteIdx ≤ sliceLen out.bufAfter 0 ∧
    List.drop out.byteIdx out.bufAfter.flatten
      = List.drop (bi + out.acceptedList.sum) buf.flatten := by
  obtain ⟨hok, k, l, h1, h2, h3, h4, h5⟩ :=
    tcpFlushLoop_eagain_inv buf rs 0 bi bc [] out hbuf hbi h hdone
  simp only [List.nil_append] at h2
  have hslice : sliceLen (buf.drop k) 0 = sliceLen buf k := by
    simp only [sliceLen, List.getD, List.get?_drop, Nat.add_zero]
  refine ⟨hok, ⟨k, h3, h1⟩, ?_, ?_⟩
  · rw [h1, hslice]
    exact h4
  · rw [h1, flatten_drop, List.drop_drop]
    congr 1
    have hz : posBytes buf 0 bi = bi := by
      simp [posBytes, sumLens]
    rw [hz] at h5
    simp only [posBytes] at h5
    rw [h2]
    omega

/-- Witness for `c6_tcp_flush_eagain_keeps_unsent_suffix`: two slices
[1,2,3] and [4,5]; the kernel accepts 2 bytes, then EAGAIN. The loop ends
with the full slice list retained (no slice was fully sent),
`outgoing_byte_idx_` = 2, and the remaining bytes past the offset are
[3, 4, 5]. -/
theorem c6_tcp_flush_eagain_witness :
    (⟨[[1, 2, 3], [4, 5]], 2, 2, [2], false, true⟩ : FlushState).statusOk = true ∧
    (∃ k, k < ([[1, 2, 3], [4, 5]] : List (List Nat)).length ∧
      (⟨[[1, 2, 3], [4, 5]], 2, 2, [2], false, true⟩ : FlushState).bufAfter
        = ([[1, 2, 3], [4, 5]] : List (List Nat)).drop k) ∧
    (⟨[[1, 2, 3], [4, 5]], 2, 2, [2], false, true⟩ : FlushState).byteIdx
      ≤ sliceLen (⟨[[1, 2, 3], [4, 5]], 2, 2, [2], false, true⟩ : FlushState).bufAfter 0 ∧
    List.drop (⟨[[1, 2, 3], [4, 5]], 2, 2, [2], false, true⟩ : FlushState).byteIdx
        (⟨[[1, 2, 3], [4, 5]], 2, 2, [2], false, true⟩ : FlushState).bufAfter.flatten
      = List.drop
          (0 + (⟨[[1, 2, 3], [4, 5]], 2, 2, [2], false, true⟩ : FlushState).acceptedList.sum)
          ([[1, 2, 3], [4, 5]] : List (List Nat)).flatten :=
  c6_tcp_flush_eagain_keeps_unsent_suffix [[1, 2, 3], [4, 5]] 0 0 [.sent 2, .eagain]
    ⟨[[1, 2, 3], [4, 5]], 2, 2, [2], false, true⟩ (by decide) (by decide) (by decide) (by decide)

/-! ## The edge-triggered read drain (C9)

`TcpDoRead` (lines 292-466) is modelled over an oracle of `recvmsg`
outcomes, one per loop iteration. The buffer is abstracted by its byte
capacity `cap` (the iov compaction between iterations only repositions the
iovs past the consumed bytes); the code's `FinishEstimate` bookkeeping on
`target_length_` does not affect the fields stated about here and is kept
out of the result record. The model returns `none` if the oracle is
exhausted or reports an impossible read (0 bytes as a success, or more bytes
than the remaining capacity). -/

/-- One `recvmsg` outcome as distinguished by TcpDoRead: EAGAIN, 0 bytes
(peer closed), a wrong-generation error (fork), any other error, or `n > 0`
bytes together with the `TCP_CM_INQ` control-message value when the kernel
supplied one. -/
inductive RecvRes where
  | eagain
  | closed
  | wrongGen
  | err
  | data (n : Nat) (inqReport : Option Nat)
deriving DecidableEq

/-- Result of a TcpDoRead call: the return value, the `status` out-param,
and the `inq_`, total read bytes, and `min_progress_size_` afterwards. -/
structure DoReadOut where
  ret : Bool
  status : Status
  inq : Nat
  totalRead : Nat
  minProgressSize : Int
deriving DecidableEq

/-- Embedding of the delivery section of TcpDoRead (lines 423-465), entered
after the drain loop broke out with `total > 0` and `inq_ = inqAtBreak`:
reset `inq_` to 1 when it is 0 (the edge was not consumed), set an ok
status, and apply frame-size tuning to `min_progress_size_`, returning false
when more bytes are still required. -/
def tcpDoReadPost (tuning : Bool) (mps : Int) (total : Nat)
    (inqAtBreak : Nat) : DoReadOut :=
  let inqF := if inqAtBreak = 0 then 1 else inqAtBreak
  if tuning then
    if 0 < mps - (total : Int) then ⟨false, okStatus, inqF, total, mps - (total : Int)⟩
    else ⟨true, okStatus, inqF, total, 1⟩
  else ⟨true, okStatus, inqF, total, mps⟩

/-- Embedding of the drain loop of TcpDoRead (lines 316-421). At the top of
every iteration `inq_` is set to 1; a `TCP_CM_INQ` control message (consumed
only when `inq_capable_`) overwrites it. EAGAIN with nothing read so far
sets `inq_ = 0` and returns false; a terminal result with nothing read
returns true with the corresponding status; any break with bytes read falls
through to the delivery section. -/
def tcpDoReadLoop (cap : Nat) (inqCapable tuning : Bool) (mps : Int) :
    Nat → List RecvRes → Option DoReadOut
  | _, [] => none
  | total, r :: rs =>
    match r with
    | .eagain =>
      if 0 < total then some (tcpDoReadPost tuning mps total 1)
      else some ⟨false, okStatus, 0, 0, mps⟩
    | .closed =>
      if 0 < total then some (tcpDoReadPost tuning mps total 1)
      else some ⟨true, tcpAnnotateError (internalError "Socket closed"), 1, 0, mps⟩
    | .wrongGen =>
      if 0 < total then some (tcpDoReadPost tuning mps total 1)
      else some ⟨true, ⟨.cancelled, "Closed on fork", some GRPC_STATUS_CANCELLED⟩, 1, 0, mps⟩
    | .err =>
      if 0 < total then some (tcpDoReadPost tuning mps total 1)
      else some ⟨true, tcpAnnotateError (internalError "recvmsg"), 1, 0, mps⟩
    | .data n report =>
      if n = 0 ∨ cap < total + n then none
      else
        let inqAfter := if inqCapable then report.getD 1 else 1
        if inqAfter = 0 ∨ total + n = cap then
          some (tcpDoReadPost tuning mps (total + n) inqAfter)
        else tcpDoReadLoop cap inqCapable tuning mps (total + n) rs

/-- `TcpDoRead` entry: nothing read yet. -/
def tcpDoRead (cap : Nat) (inqCapable tuning : Bool) (mps : Int)
    (results : List RecvRes) : Option DoReadOut :=
  tcpDoReadLoop cap inqCapable tuning mps 0 results

/-! ## The Read/HandleRead callback protocol (C3, and the dispatch part of C9) -/

/-- Where the pending `on_read` callback of one Read call lives: nowhere
(completed synchronously), stored in `read_cb_` with a readable edge
requested, handed to `engine_->Run`, or already invoked. -/
inductive CbPhase where
  | noCb
  | registered
  | scheduled
  | done
deriving DecidableEq

/-- Abstraction of a TcpDoRead call's outcome as consumed by Read and
HandleReadLocked: returned false (edge consumed, not complete), or returned
true with an ok / non-ok status. -/
inductive DoReadOutcome where
  | notComplete
  | completeOk
  | completeErr
deriving DecidableEq

/-- Which dispatch branch of `PosixEndpointImpl::Read` (lines 626-671) runs:
the first-ever-read branch, the `inq_ == 0` wait branch (both register the
callback and request a readable edge), or the synchronous branch that calls
MaybeMakeReadSlices and TcpDoRead directly. -/
inductive ReadBranch where
  | firstRead
  | waitInq
  | syncRead
deriving DecidableEq

structure ReadCallOut where
  retval : Bool
  phase : CbPhase
  branch : ReadBranch
deriving DecidableEq

/-- Embedding of the branch structure of `PosixEndpointImpl::Read`
(lines 610-673): on the first read ever, or when `inq_ == 0`, store the
callback and request an edge, returning false; otherwise run TcpDoRead
synchronously - not complete stores the callback and requests an edge
(false), an immediate error hands the callback to `engine_->Run` (false), and
an immediate success returns true without the callback going anywhere. -/
def readCall (isFirstRead : Bool) (inq : Nat) (o : DoReadOutcome) : ReadCallOut :=
  if isFirstRead then ⟨false, .registered, .firstRead⟩
  else if inq = 0 then ⟨false, .registered, .waitInq⟩
  else
    match o with
    | .notComplete => ⟨false, .registered, .syncRead⟩
    | .completeErr => ⟨false, .scheduled, .syncRead⟩
    | .completeOk => ⟨true, .noCb, .syncRead⟩

/-- Environment events after a Read call: the poller fires the readable
closure (`HandleRead`, with the edge status, the memory-owner validity, and
the TcpDoRead outcome of that invocation), or the engine runs a callback
scheduled via `engine_->Run`. -/
inductive CbEvent where
  | edge (statusOk memValid : Bool) (o : DoReadOutcome)
  | engineRun
deriving DecidableEq

/-- Embedding of `HandleRead` (lines 588-608) with `HandleReadLocked`
(lines 570-586), plus the run-once contract of `engine_->Run`: a poller edge
acts only on a registered callback - if the status is ok, memory is valid
and TcpDoRead is not complete, the callback stays registered and a new edge
is requested; otherwise the read completes and the callback is invoked
(counted) exactly here. `engineRun` invokes a scheduled callback once.
Events that do not match a waiting callback change nothing: the poller fires
the closure only after `NotifyOnRead`, and the engine runs only what was
handed to it. -/
def cbStep : CbPhase × Nat → CbEvent → CbPhase × Nat
  | (.registered, c), .edge so mv o =>
    if so = true ∧ mv = true ∧ o = .notComplete then (.registered, c)
    else (.done, c + 1)
  | (.scheduled, c), .engineRun => (.done, c + 1)
  | s, _ => s

/-- All environment events of a trace, in order. -/
def runCbEvents (s : CbPhase × Nat) (evs : List CbEvent) : CbPhase × Nat :=
  evs.foldl cbStep s

theorem runCbEvents_noCb (evs : List CbEvent) (c : Nat) :
    runCbEvents (.noCb, c) evs = (.noCb, c) := by
  induction evs with
  | nil => rfl
  | cons e t ih =>
    cases e with
    | edge so mv o => simpa [runCbEvents, cbStep] using ih
    | engineRun => simpa [runCbEvents, cbStep] using ih

/-- The invocation count is 1 in phase `done` and 0 before, in every
reachable state. -/
theorem runCbEvents_inv (evs : List CbEvent) :
    ∀ (ph : CbPhase) (c : Nat),
      ((ph = CbPhase.done → c = 1) ∧ (ph ≠ CbPhase.done → c = 0)) →
      ((runCbEvents (ph, c) evs).1 = CbPhase.done → (runCbEvents (ph, c) evs).2 = 1) ∧
      ((runCbEvents (ph, c) evs).1 ≠ CbPhase.done → (runCbEvents (ph, c) evs).2 = 0) := by
  induction evs with
  | nil =>
    intro ph c h
    exact h
  | cons e t ih =>
    intro ph c h
    have hstep : ((cbStep (ph, c) e).1 = CbPhase.done → (cbStep (ph, c) e).2 = 1) ∧
        ((cbStep (ph, c) e).1 ≠ CbPhase.done → (cbStep (ph, c) e).2 = 0) := by
      cases ph <;> cases e <;> simp only [cbStep] <;> (try split_ifs) <;> simp_all
    have : runCbEvents (ph, c) (e :: t) = runCbEvents (cbStep (ph, c) e) t := rfl
    rw [this]
    exact ih (cbStep (ph, c) e).1 (cbStep (ph, c) e).2 hstep

/-- C3: if Read returns true the callback is never invoked along any
subsequent trace of poller edges and engine tasks (it was neither stored nor
scheduled); if Read returns false the callback is invoked at most once, and
it has been invoked exactly once precisely when the protocol has reached the
`done` phase - it is never lost while pending (the eventual arrival of the
completing edge / engine task is the poller's and engine's fairness
contract, outside this endpoint). -/
theorem c3_read_callback_exactly_once
    (isFirstRead : Bool) (inq : Nat) (o : DoReadOutcome) (evs : List CbEvent) :
    ((readCall isFirstRead inq o).retval = true →
      (runCbEvents ((readCall isFirstRead inq o).phase, 0) evs).2 = 0) ∧
    ((readCall isFirstRead inq o).retval = false →
      (runCbEvents ((readCall isFirstRead inq o).phase, 0) evs).2 ≤ 1 ∧
      ((runCbEvents ((readCall isFirstRead inq o).phase, 0) evs).2 = 1 ↔
        (runCbEvents ((readCall isFirstRead inq o).phase, 0) evs).1 = CbPhase.done)) := by
  have hnotdone : (readCall isFirstRead inq o).phase ≠ CbPhase.done := by
    cases isFirstRead <;> cases o <;> by_cases h2 : inq = 0 <;> simp_all [readCall]
  constructor
  · intro hret
    have hph : (readCall isFirstRead inq o).phase = CbPhase.noCb := by
      cases isFirstRead <;> cases o <;> by_cases h2 : inq = 0 <;> simp_all [readCall]
    rw [hph, runCbEvents_noCb]
  · intro _
    have hfin := runCbEvents_inv evs (readCall isFirstRead inq o).phase 0
      ⟨fun hd => absurd hd hnotdone, fun _ => rfl⟩
    by_cases hd : (runCbEvents ((readCall isFirstRead inq o).phase, 0) evs).1 = CbPhase.done
    · have h1 := hfin.1 hd
      constructor
      · omega
      · constructor
        · intro _
          exact hd
        · intro _
          exact h1
    · have h0 := hfin.2 hd
      constructor
      · omega
      · constructor
        · intro h1
          omega
        · intro hc
          exact absurd hc hd

theorem tcpDoReadPost_facts (tuning : Bool) (mps : Int) (total inqB : Nat) :
    (tcpDoReadPost tuning mps total inqB).inq ≠ 0 ∧
    (tcpDoReadPost tuning mps total inqB).status = okStatus ∧
    (tcpDoReadPost tuning mps total inqB).totalRead = total := by
  simp only [tcpDoReadPost]
  split_ifs <;> simp_all

/-- Loop invariant for the read drain: a true return leaves `inq_` nonzero,
and `inq_ = 0` on return happens only on the EAGAIN-with-nothing-read exit,
which returns false with an untouched ok status. -/
theorem tcpDoReadLoop_inv (cap : Nat) (ic tuning : Bool) (mps : Int) :
    ∀ (rs : List RecvRes) (total : Nat) (out : DoReadOut),
      tcpDoReadLoop cap ic tuning mps total rs = some out →
      (out.ret = true → out.inq ≠ 0) ∧
      (out.inq = 0 → out.ret = false ∧ out.totalRead = 0 ∧ out.status = okStatus) := by
  intro rs
  induction rs with
  | nil =>
    intro total out h
    simp [tcpDoReadLoop] at h
  | cons r rs ih =>
    intro total out h
    cases r with
    | eagain =>
      simp only [tcpDoReadLoop] at h
      by_cases ht : 0 < total
      · rw [if_pos ht] at h
        injection h with h
        subst h
        obtain ⟨h1, h2, _⟩ := tcpDoReadPost_facts tuning mps total 1
        exact ⟨fun _ => h1, fun hz => absurd hz h1⟩
      · rw [if_neg ht] at h
        injection h with h
        subst h
        exact ⟨fun hr => by simp at hr, fun _ => ⟨rfl, rfl, rfl⟩⟩
    | closed =>
      simp only [tcpDoReadLoop] at h
      by_cases ht : 0 < total
      · rw [if_pos ht] at h
        injection h with h
        subst h
        obtain ⟨h1, h2, _⟩ := tcpDoReadPost_facts tuning mps total 1
        exact ⟨fun _ => h1, fun hz => absurd hz h1⟩
      · rw [if_neg ht] at h
        injection h with h
        subst h
        exact ⟨fun _ => by simp, fun hz => by simp at hz⟩
    | wrongGen =>
      simp only [tcpDoReadLoop] at h
      by_cases ht : 0 < total
      · rw [if_pos ht] at h
        injection h with h
        subst h
        obtain ⟨h1, h2, _⟩ := tcpDoReadPost_facts tuning mps total 1
        exact ⟨fun _ => h1, fun hz => absurd hz h1⟩
      · rw [if_neg ht] at h
        injection h with h
        subst h
        exact ⟨fun _ => by simp, fun hz => by simp at hz⟩
    | err =>
      simp only [tcpDoReadLoop] at h
      by_cases ht : 0 < total
      · rw [if_pos ht] at h
        injection h with h
        subst h
        obtain ⟨h1, h2, _⟩ := tcpDoReadPost_facts tuning mps total 1
        exact ⟨fun _ => h1, fun hz => absurd hz h1⟩
      · rw [if_neg ht] at h
        injection h with h
        subst h
        exact ⟨fun _ => by simp, fun hz => by simp at hz⟩
    | data n report =>
      simp only [tcpDoReadLoop] at h
      by_cases hv : n = 0 ∨ cap < total + n
      · simp [hv] at h
      · rw [if_neg hv] at h
        by_cases hb : (if ic then report.getD 1 else 1) = 0 ∨ total + n = cap
        · rw [if_pos hb] at h
          injection h with h
          subst h
          obtain ⟨h1, h2, _⟩ := tcpDoReadPost_facts tuning mps (total + n)
            (if ic then report.getD 1 else 1)
          exact ⟨fun _ => h1, fun hz => absurd hz h1⟩
        · rw [if_neg hb] at h
          exact ih _ _ h

/-- C9: whenever TcpDoRead returns true its `inq_` is nonzero on return (in
particular it is reset from 0 to 1 in the delivery section when the drain
broke out without EAGAIN); `inq_ = 0` on return happens only when the drain
ended in EAGAIN with nothing read, returning false with an ok status; and a
subsequent Read call with `inq_` nonzero (and not the first read) takes the
synchronous TcpDoRead branch instead of waiting for a readable edge. -/
theorem c9_inq_nonzero_after_complete_read :
    (∀ (cap : Nat) (ic tuning : Bool) (mps : Int) (rs : List RecvRes) (out : DoReadOut),
      tcpDoRead cap ic tuning mps rs = some out → out.ret = true → out.inq ≠ 0) ∧
    (∀ (cap : Nat) (ic tuning : Bool) (mps : Int) (rs : List RecvRes) (out : DoReadOut),
      tcpDoRead cap ic tuning mps rs = some out → out.inq = 0 →
      out.ret = false ∧ out.totalRead = 0 ∧ out.status = okStatus) ∧
    (∀ (inq : Nat) (o : DoReadOutcome), inq ≠ 0 →
      (readCall false inq o).branch = ReadBranch.syncRead) := by
  refine ⟨?_, ?_, ?_⟩
  · intro cap ic tuning mps rs out h
    exact (tcpDoReadLoop_inv cap ic tuning mps rs 0 out h).1
  · intro cap ic tuning mps rs out h
    exact (tcpDoReadLoop_inv cap ic tuning mps rs 0 out h).2
  · intro inq o h
    cases o <;> simp [readCall, h]

/-- Witness for `c9_inq_nonzero_after_complete_read`: a single recvmsg
returning 5 bytes with a `TCP_CM_INQ` report of 0 completes the read and
leaves `inq_` = 1 (the reset), and a Read call with `inq_ = 1` dispatches to
the synchronous branch. -/
theorem c9_inq_nonzero_witness :
    ((⟨true, okStatus, 1, 5, 1⟩ : DoReadOut).inq ≠ 0) ∧
    (readCall false 1 DoReadOutcome.completeOk).branch = ReadBranch.syncRead :=
  ⟨c9_inq_nonzero_after_complete_read.1 10 true false 1 [.data 5 (some 0)]
      ⟨true, okStatus, 1, 5, 1⟩ (by decide) (by decide),
    c9_inq_nonzero_after_complete_read.2.2 1 DoReadOutcome.completeOk (by decide)⟩

/-- Witness for `c3_read_callback_exactly_once`: a synchronous successful
read (not first, `inq_ = 1`, TcpDoRead completes ok) returns true and its
callback is never invoked; a read that registered (first read) and then saw
a completing edge has its callback invoked exactly once. -/
theorem c3_read_callback_witness :
    (runCbEvents ((readCall false 1 DoReadOutcome.completeOk).phase, 0)
        [CbEvent.engineRun, CbEvent.edge true true DoReadOutcome.completeOk]).2 = 0 ∧
    (runCbEvents ((readCall true 0 DoReadOutcome.completeOk).phase, 0)
        [CbEvent.edge true true DoReadOutcome.notComplete,
          CbEvent.edge true true DoReadOutcome.completeOk]).2 ≤ 1 :=
  ⟨(c3_read_callback_exactly_once false 1 DoReadOutcome.completeOk
      [CbEvent.engineRun, CbEvent.edge true true DoReadOutcome.completeOk]).1 (by decide),
    ((c3_read_callback_exactly_once true 0 DoReadOutcome.completeOk
      [CbEvent.edge true true DoReadOutcome.notComplete,
        CbEvent.edge true true DoReadOutcome.completeOk]).2 (by decide)).1⟩

/-! ## The hard-memlock ulimit file parser (C4)

`ParseUlimitMemLockFromFile` (lines 125-150) is modelled on the loaded file
contents (the `LoadFile` call is replaced by the contents argument; a load
failure returns 0 before any parsing). Strings are lists of characters;
`std::string::npos` and the `size_t` subtraction `end - start` are modelled
with explicit arithmetic modulo 2^64. -/

/-- C `isspace` (the character class `std::isspace` tests in `rtrim`,
line 120). -/
def cIsSpace (c : Char) : Bool :=
  c = ' ' || c = '\t' || c = '\n' || c = '\x0b' || c = '\x0c' || c = '\r'

/-- Embedding of `rtrim` (lines 118-123): erase the trailing whitespace. -/
def rtrimChars (s : List Char) : List Char :=
  (s.reverse.dropWhile cIsSpace).reverse

def listStartsWith : List Char → List Char → Bool
  | _, [] => true
  | [], _ :: _ => false
  | a :: s, b :: p => a == b && listStartsWith s p

/-- `std::string::find(const string&)`: index of the first occurrence of
`pat`, if any. -/
def findSubstrPosAux (pat : List Char) : List Char → Nat → Option Nat
  | [], i => if listStartsWith [] pat then some i else none
  | a :: t, i =>
    if listStartsWith (a :: t) pat then some i else findSubstrPosAux pat t (i + 1)

def findSubstrPos (s pat : List Char) : Option Nat :=
  findSubstrPosAux pat s 0

/-- `std::string::find(char c, size_t pos)`: index of the first occurrence
of character `c` at or after `pos`, if any. -/
def findCharFrom (s : List Char) (c : Char) (pos : Nat) : Option Nat :=
  match (s.drop pos).findIdx? (fun x => x == c) with
  | some i => some (pos + i)
  | none => none

def npos : Nat := 2 ^ 64 - 1

def UINT64_MAX : Nat := 2 ^ 64 - 1

def atoiDigits : List Char → Nat → Nat
  | [], acc => acc
  | c :: t, acc => if c.isDigit then atoiDigits t (acc * 10 + (c.toNat - 48)) else acc

/-- C `atoi`: skip leading whitespace, optional sign, then the longest digit
run; 0 when there is none (overflow, being undefined behaviour, is not
modelled). -/
def atoi (s : List Char) : Int :=
  match s.dropWhile cIsSpace with
  | '-' :: t => -(atoiDigits t 0 : Int)
  | '+' :: t => (atoiDigits t 0 : Int)
  | s1 => (atoiDigits s1 0 : Int)

def kHardMemlockPat : List Char := "* hard memlock".toList

/-- Embedding of `ParseUlimitMemLockFromFile` (lines 125-150) on the file
contents. The bug of line 139 is modelled as written: the source calls
`file_contents.find(start, '\n')`, which resolves to
`find(char c, size_t pos)` - it searches for the character with code
`start` (the size_t is converted to char; modelled as `start % 256`)
starting at position 10 (the code of `'\n'`), instead of searching for a
newline from `start`. A failed search yields `npos`, and `substr(start +
prefix_len + 1, end - start)` then takes `end - start` characters in size_t
arithmetic (`substr` clamps the count to the tail; it would throw only when
the start position exceeds the size, which never happens when the prefix
was found and is followed by at least one character). The `atoi` result is
converted to uint64 modulo 2^64. -/
def parseUlimitMemLockFromContents (contents : List Char) : Nat :=
  match findSubstrPos contents kHardMemlockPat with
  | none => 0
  | some start =>
    let endPos : Nat :=
      match findCharFrom contents (Char.ofNat (start % 256)) 10 with
      | some e => e
      | none => npos
    let cnt : Nat := (endPos + 2 ^ 64 - start) % 2 ^ 64
    let value := rtrimChars ((contents.drop (start + kHardMemlockPat.length + 1)).take cnt)
    if value = "unlimited".toList ∨ value = "infinity".toList then UINT64_MAX
    else ((atoi value) % (2 ^ 64 : Int)).toNat

/-- Modelled from the spec: the intended parse per the claim and the spec's
design notes ("scan for `'\n'` starting at `start`"): the value is the text
after the prefix and its separator up to the next newline, with trailing
whitespace trimmed; `unlimited` and `infinity` map to UINT64_MAX. -/
def claimedParseUlimitMemLock (contents : List Char) : Nat :=
  match findSubstrPos contents kHardMemlockPat with
  | none => 0
  | some start =>
    let value := rtrimChars
      ((contents.drop (start + kHardMemlockPat.length + 1)).takeWhile (fun c => !(c == '\n')))
    if value = "unlimited".toList ∨ value = "infinity".toList then UINT64_MAX
    else ((atoi value) % (2 ^ 64 : Int)).toNat

/-- C4: on the contents `"* hard memlock unlimited\nX"` the claimed parse
extracts `unlimited` and returns UINT64_MAX, but the code returns 0: the
swapped `find` arguments make `end` npos, the extracted substring runs past
the newline (`"unlimited\nX"`), the unlimited comparison fails, and `atoi`
yields 0. The code contradicts its own comment ("Find position of next
newline after prefix"). -/
theorem c4_parse_ulimit_find_bug :
    parseUlimitMemLockFromContents ("* hard memlock unlimited\nX".toList) = 0 ∧
    claimedParseUlimitMemLock ("* hard memlock unlimited\nX".toList) = UINT64_MAX ∧
    (0 : Nat) ≠ UINT64_MAX := by
  refine ⟨by decide, by decide, by decide⟩
